import Mathlib

/-
Verification development for the day16 BITS packet decoder
(src/day16/src/main.rs).

The Rust code works on a `&str` of '0'/'1' characters; we embed the bit
string as `List Bool` (`true` = '1').  All Rust failure modes are panics
(string-slice out of range, `unwrap` on a failed `from_str_radix`,
`unreachable!`, and the explicit `panic!` in `ValuePacket::new`); the
embedding turns each panic site into a distinct constructor of the
`Abort` error type and every fallible function returns `Except Abort _`.
The recursive descent of `parse_packet` / `OperatorPacket::new` is
embedded with an explicit fuel parameter (`outOfFuel` is the artifact of
that embedding and corresponds to no Rust behaviour).
-/

/-- One bit string, most significant bit first ('1' = `true`). -/
abbrev Bits := List Bool

/-- The failure modes of the decoder.  Each constructor names one panic
site of the Rust code, except `lengthMismatch` (an error kind named in
the design document that the code never raises; it is included only so
that statements about it can be made, and we prove the decoder never
produces it) and `outOfFuel` (artifact of the fuel embedding). -/
inductive Abort where
  /-- a string slice `&s[a..b]` ran past the end of the input -/
  | truncatedStream
  /-- `to_binary` hit its `unreachable!` arm: not an uppercase hex digit -/
  | invalidDigit
  /-- `usize::from_str_radix(_, 2).unwrap()` failed (empty or ≥ 2^64) -/
  | radixFail
  /-- `panic!("value packet parsing error")` (dead code in the Rust) -/
  | valueGroupLen
  /-- an `unreachable!` arm (`OpType::from`, length-type-id match) -/
  | unreachableArm
  /-- `sub_packets[i]` indexed out of bounds in `OperatorPacket::value` -/
  | subIndex
  /-- `.min()/.max().unwrap()` of an empty sub-packet list -/
  | emptyMinMax
  /-- named in the spec only; never produced by the code -/
  | lengthMismatch
  /-- fuel exhaustion: artifact of the embedding, not a Rust behaviour -/
  | outOfFuel
deriving DecidableEq, Repr

/-- Embeds `&s[a..b]` on the bit string: Rust string slicing panics when
`a > b` or `b > s.len()`; chars here are single-byte so byte indices and
character indices agree. -/
def sliceBits (s : Bits) (a b : Nat) : Except Abort Bits :=
  if a ≤ b ∧ b ≤ s.length then .ok ((s.drop a).take (b - a))
  else .error .truncatedStream

/-- Big-endian value of a bit string, as `usize::from_str_radix(b, 2)`
computes it (left to right, `acc * 2 + digit`). -/
def bitsToNat (bs : Bits) : Nat :=
  bs.foldl (fun a b => 2 * a + (if b then 1 else 0)) 0

/-- Embeds `binary_to_usize` (main.rs:189-191):
`usize::from_str_radix(b, 2).unwrap()`.  `from_str_radix` returns `Err`
on an empty string or when the value exceeds `usize::MAX = 2^64 - 1`
(the repo targets 64-bit); the `.unwrap()` turns that into a panic,
embedded as `.error .radixFail`.  The strings passed in this program
contain only '0'/'1', so no digit error can occur. -/
def binaryToUsize (bs : Bits) : Except Abort Nat :=
  if bs = [] then .error .radixFail
  else if bitsToNat bs < 2 ^ 64 then .ok (bitsToNat bs)
  else .error .radixFail

/-- `struct ValuePacket { version, value, len }` (main.rs:3-8). -/
structure ValuePacket where
  version : Nat
  value : Nat
  len : Nat
deriving DecidableEq, Repr

/-- `enum OpType` (main.rs:44-54). -/
inductive OpType where
  | Sum | Product | Minimum | Maximum
  | GreaterThan | LessThan | EqualTo | Value
deriving DecidableEq, Repr

/-- `impl From<usize> for OpType` (main.rs:56-70); the `_` arm is
`unreachable!()` (and is indeed dead: the argument is a 3-bit value). -/
def OpType.fromUsize : Nat → Except Abort OpType
  | 0 => .ok .Sum
  | 1 => .ok .Product
  | 2 => .ok .Minimum
  | 3 => .ok .Maximum
  | 4 => .ok .Value
  | 5 => .ok .GreaterThan
  | 6 => .ok .LessThan
  | 7 => .ok .EqualTo
  | _ => .error .unreachableArm

/-- `enum Packet` (main.rs:160-164).  The Rust `OperatorPacket` struct
(version, op_type, sub_packets, len) is flattened into the `Operator`
constructor's four fields. -/
inductive Packet where
  | Value : ValuePacket → Packet
  | Operator (version : Nat) (opType : OpType) (subPackets : List Packet)
      (len : Nat) : Packet

/-- `Packet::len` (main.rs:181-186). -/
def Packet.len : Packet → Nat
  | .Value v => v.len
  | .Operator _ _ _ l => l

/-- The group-reading loop of `ValuePacket::new` (main.rs:14-31).  Rust
keeps the whole body string and slices `&raw[i*5 .. i*5+5]` at step `i`;
consuming a 5-bit group from the front of the suffix is the same thing.
A slice past the end panics (`truncatedStream`); the Rust check
`if v.len() != 5 panic!("value packet parsing error")` is dead because
the slice has already panicked in that situation — with the 5-element
pattern here it is structurally impossible.  Returns the concatenated
4-bit payloads (what `value_raw.join("")` builds) and the number of
groups read (`i`). -/
def readGroups : Bits → Except Abort (Bits × Nat)
  | b0 :: b1 :: b2 :: b3 :: b4 :: rest =>
    if b0 = false then .ok ([b1, b2, b3, b4], 1)
    else
      match readGroups rest with
      | .error e => .error e
      | .ok (p, j) => .ok ([b1, b2, b3, b4] ++ p, j + 1)
  | _ => .error .truncatedStream

/-- `ValuePacket::new` (main.rs:10-42): read groups until one starts
with '0', join the 4-bit payloads, convert with `binary_to_usize`, and
record `len = i * 5 + 6`. -/
def ValuePacket.new (version : Nat) (raw : Bits) : Except Abort ValuePacket :=
  match readGroups raw with
  | .error e => .error e
  | .ok (payload, i) =>
    match binaryToUsize payload with
    | .error e => .error e
    | .ok value => .ok ⟨version, value, i * 5 + 6⟩

/-- The `"1"` arm of `OperatorPacket::new` (main.rs:87-99): decode
exactly `n` sub-packets, each at `&raw[start..]`, advancing `start` by
each packet's `len`.  `P` is the packet parser (`parse_packet` one fuel
level down).  Returns the sub-packets and the final `start`, which
equals `total_size` (1 + 11 + sum of sub-packet lengths). -/
def countGo (P : Bits → Except Abort Packet) :
    Nat → Bits → Nat → Except Abort (List Packet × Nat)
  | 0, _, start => .ok ([], start)
  | n + 1, raw, start =>
    match P (raw.drop start) with
    | .error e => .error e
    | .ok p =>
      match countGo P n raw (start + p.len) with
      | .error e => .error e
      | .ok (ps, fs) => .ok (p :: ps, fs)

/-- The `"0"` arm's `while sub_packets_length != sub_packages_length_counter`
loop of `OperatorPacket::new` (main.rs:100-115): keep decoding at
`&raw[start..]` until the accumulated sub-packet length `counter` is
EXACTLY `target` (there is no overshoot check).  `P` parses one packet,
`U` is the same loop one fuel level down.  Returns the sub-packets and
the final `start` (= 1 + 15 + accumulated length when it exits). -/
def untilStep (P : Bits → Except Abort Packet)
    (U : Nat → Nat → Bits → Nat → Except Abort (List Packet × Nat))
    (target counter : Nat) (raw : Bits) (start : Nat) :
    Except Abort (List Packet × Nat) :=
  if counter = target then .ok ([], start)
  else
    match P (raw.drop start) with
    | .error e => .error e
    | .ok p =>
      match U target (counter + p.len) raw (start + p.len) with
      | .error e => .error e
      | .ok (ps, fs) => .ok (p :: ps, fs)

/-- `OperatorPacket::new` (main.rs:80-127): read the length-type bit,
then either the 11-bit count or the 15-bit total, run the matching loop
and build the packet with `len = total_size + 6`; in both arms the
loop's final `start` equals `total_size`.  The `_` arm of the Rust match
on the length-type string is `unreachable!()` (dead: the 1-bit slice is
"0" or "1"). -/
def opStep (P : Bits → Except Abort Packet)
    (U : Nat → Nat → Bits → Nat → Except Abort (List Packet × Nat))
    (version : Nat) (op : OpType) (raw : Bits) : Except Abort Packet :=
  match sliceBits raw 0 1 with
  | .error e => .error e
  | .ok ltb =>
    if ltb = [true] then
      match sliceBits raw 1 12 with
      | .error e => .error e
      | .ok nb =>
        match binaryToUsize nb with
        | .error e => .error e
        | .ok n =>
          match countGo P n raw 12 with
          | .error e => .error e
          | .ok (subs, fs) => .ok (.Operator version op subs (fs + 6))
    else if ltb = [false] then
      match sliceBits raw 1 16 with
      | .error e => .error e
      | .ok lb =>
        match binaryToUsize lb with
        | .error e => .error e
        | .ok target =>
          match U target 0 raw 16 with
          | .error e => .error e
          | .ok (subs, fs) => .ok (.Operator version op subs (fs + 6))
    else .error .unreachableArm

/-- `parse_packet` (main.rs:193-205): read the 3-bit version and the
3-bit type id, then dispatch on `OpType::Value` to `ValuePacket::new`
or `OperatorPacket::new`, both on `&input[6..]`. -/
def parseStep (P : Bits → Except Abort Packet)
    (U : Nat → Nat → Bits → Nat → Except Abort (List Packet × Nat))
    (input : Bits) : Except Abort Packet :=
  match sliceBits input 0 3 with
  | .error e => .error e
  | .ok vb =>
    match binaryToUsize vb with
    | .error e => .error e
    | .ok version =>
      match sliceBits input 3 6 with
      | .error e => .error e
      | .ok tb =>
        match binaryToUsize tb with
        | .error e => .error e
        | .ok t =>
          match OpType.fromUsize t with
          | .error e => .error e
          | .ok op =>
            if op = OpType.Value then
              match ValuePacket.new version (input.drop 6) with
              | .error e => .error e
              | .ok vp => .ok (.Value vp)
            else opStep P U version op (input.drop 6)

/-- Fuel level 0 of the length-type-0 loop: the `counter = target` exit
still works, anything else is out of fuel. -/
def zeroUntil (target counter : Nat) (_raw : Bits) (start : Nat) :
    Except Abort (List Packet × Nat) :=
  if counter = target then .ok ([], start) else .error .outOfFuel

/-- The fuel-indexed pair (packet parser, length-type-0 loop).  The two
are mutually recursive in the Rust (`parse_packet` ↔
`OperatorPacket::new`); each fuel level is built from the previous one,
so the pair is structurally recursive on the fuel and computes by
`rfl`/`decide`. -/
def parseBundle : Nat →
    (Bits → Except Abort Packet) ×
    (Nat → Nat → Bits → Nat → Except Abort (List Packet × Nat))
  | 0 => (fun _ => .error .outOfFuel, zeroUntil)
  | fuel + 1 =>
    let prev := parseBundle fuel
    (parseStep prev.1 (untilStep prev.1 prev.2), untilStep prev.1 prev.2)

/-- `parse_packet` with `fuel` levels of recursion available. -/
def parsePacket (fuel : Nat) (input : Bits) : Except Abort Packet :=
  (parseBundle fuel).1 input

/-- The length-type-0 sub-packet loop with `fuel` levels available. -/
def parseUntilAt (fuel target counter : Nat) (raw : Bits) (start : Nat) :
    Except Abort (List Packet × Nat) :=
  (parseBundle fuel).2 target counter raw start

/-- `to_binary` (main.rs:207-227): uppercase hex digit to its fixed
4-bit big-endian representation; the `_` arm is `unreachable!("")`.
Note the match covers '0'-'9' and 'A'-'F' only — lowercase hex digits
fall into the panic arm. -/
def toBinary : Char → Except Abort Bits
  | '0' => .ok [false, false, false, false]
  | '1' => .ok [false, false, false, true]
  | '2' => .ok [false, false, true, false]
  | '3' => .ok [false, false, true, true]
  | '4' => .ok [false, true, false, false]
  | '5' => .ok [false, true, false, true]
  | '6' => .ok [false, true, true, false]
  | '7' => .ok [false, true, true, true]
  | '8' => .ok [true, false, false, false]
  | '9' => .ok [true, false, false, true]
  | 'A' => .ok [true, false, true, false]
  | 'B' => .ok [true, false, true, true]
  | 'C' => .ok [true, true, false, false]
  | 'D' => .ok [true, true, false, true]
  | 'E' => .ok [true, true, true, false]
  | 'F' => .ok [true, true, true, true]
  | _ => .error .invalidDigit

/-- The `chars().map(to_binary).collect()` part of `hex_decode`: maps in
input order and concatenates; the first panic aborts everything. -/
def toBinaryAll : List Char → Except Abort Bits
  | [] => .ok []
  | c :: cs =>
    match toBinary c with
    | .error e => .error e
    | .ok bs =>
      match toBinaryAll cs with
      | .error e => .error e
      | .ok rest => .ok (bs ++ rest)

/-- `str::trim`: strip leading and trailing whitespace (the inputs in
question use only ASCII whitespace, which `Char.isWhitespace` covers). -/
def trimChars (s : List Char) : List Char :=
  ((s.dropWhile Char.isWhitespace).reverse.dropWhile Char.isWhitespace).reverse

/-- `hex_decode` (main.rs:229-231). -/
def hexDecode (s : List Char) : Except Abort Bits :=
  toBinaryAll (trimChars s)

/-- The decode pipeline of `main` (main.rs:233-243): hex-decode the
text, then parse one packet from the bit string. -/
def mainDecode (fuel : Nat) (s : List Char) : Except Abort Packet :=
  match hexDecode s with
  | .error e => .error e
  | .ok bs => parsePacket fuel bs

mutual

/-- `Packet::value` / `OperatorPacket::value` (main.rs:135-157,
174-179).  Comparison operators (and the impossible `Value` case) go
through `compare` (main.rs:136-148); `sub_packets[0]` / `[1]` panic when
missing (`subIndex`); `.min()/.max().unwrap()` panics on an empty list
(`emptyMinMax`).  `usize` arithmetic is modelled on `Nat`. -/
def Packet.value : Packet → Except Abort Nat
  | .Value v => .ok v.value
  | .Operator _ op subs _ =>
    match op with
    | .Sum =>
      match valuesList subs with
      | .error e => .error e
      | .ok vs => .ok vs.sum
    | .Product =>
      match valuesList subs with
      | .error e => .error e
      | .ok vs => .ok (vs.foldl (· * ·) 1)
    | .Minimum =>
      match valuesList subs with
      | .error e => .error e
      | .ok vs =>
        match vs.min? with
        | some m => .ok m
        | none => .error .emptyMinMax
    | .Maximum =>
      match valuesList subs with
      | .error e => .error e
      | .ok vs =>
        match vs.max? with
        | some m => .ok m
        | none => .error .emptyMinMax
    | other => compareOp other subs

/-- The `compare` closure of `OperatorPacket::value`.  `sub_packets[0]`
is evaluated fully before `sub_packets[1]` is indexed; with two or more
sub-packets the extras are silently ignored; the final `_` arm of the
Rust match is `unreachable!()`. -/
def compareOp : OpType → List Packet → Except Abort Nat
  | _, [] => .error .subIndex
  | _, [p1] =>
    match Packet.value p1 with
    | .error e => .error e
    | .ok _ => .error .subIndex
  | op, p1 :: p2 :: _ =>
    match Packet.value p1 with
    | .error e => .error e
    | .ok v1 =>
      match Packet.value p2 with
      | .error e => .error e
      | .ok v2 =>
        match op with
        | .GreaterThan => .ok (if v2 < v1 then 1 else 0)
        | .LessThan => .ok (if v1 < v2 then 1 else 0)
        | .EqualTo => .ok (if v1 = v2 then 1 else 0)
        | _ => .error .unreachableArm

/-- `self.sub_packets.iter().map(|v| v.value())` evaluated in order,
first panic aborting. -/
def valuesList : List Packet → Except Abort (List Nat)
  | [] => .ok []
  | p :: ps =>
    match Packet.value p with
    | .error e => .error e
    | .ok v =>
      match valuesList ps with
      | .error e => .error e
      | .ok vs => .ok (v :: vs)

end

mutual

/-- `Packet::version_sum` / `OperatorPacket::version_sum`
(main.rs:129-133, 166-172): own version for a literal, sub-packet sum
plus own version for an operator. -/
def Packet.versionSum : Packet → Nat
  | .Value v => v.version
  | .Operator version _ subs _ => versionSumList subs + version

/-- `self.sub_packets.iter().map(|p| p.version_sum()).sum()`. -/
def versionSumList : List Packet → Nat
  | [] => 0
  | p :: ps => p.versionSum + versionSumList ps

end

/-- The 3-bit version field of a node. -/
def Packet.version : Packet → Nat
  | .Value v => v.version
  | .Operator version _ _ _ => version

mutual

/-- Modelled from the spec: the independent flattening of the packet
tree ("the sum of the version field over every node in the tree,
computed independently by flattening the tree"); used only to state the
version-sum claim against `Packet.versionSum`. -/
def Packet.flatten : Packet → List Packet
  | .Value v => [.Value v]
  | .Operator version op subs l =>
    .Operator version op subs l :: flattenList subs

/-- Flattening of a forest, in order. -/
def flattenList : List Packet → List Packet
  | [] => []
  | p :: ps => p.flatten ++ flattenList ps

end

/-- Modelled from the spec: a valid hex digit in the case-insensitive
sense of the design document ("maps each hex character
(case-insensitive)"); used only to state claims, the code itself
accepts uppercase only. -/
def isHexDigitCI (c : Char) : Bool :=
  c.isDigit || ('A' ≤ c && c ≤ 'F') || ('a' ≤ c && c ≤ 'f')

/-- The frame property of a packet parser: a successful parse consumed
at least the 6-bit header, consumed no more bits than the input holds,
and looked only at the first `len` bits — any input agreeing on those
bits parses to the very same packet. -/
def frameP (P : Bits → Except Abort Packet) : Prop :=
  ∀ input p, P input = .ok p →
    6 ≤ p.len ∧ p.len ≤ input.length ∧
    ∀ input', input.take p.len = input'.take p.len → P input' = .ok p

/-- The frame property of the length-type-0 loop: a successful run only
moves `start` forward, stays inside the input, and looks only at the
first `fs` bits. -/
def frameU
    (U : Nat → Nat → Bits → Nat → Except Abort (List Packet × Nat)) :
    Prop :=
  ∀ target counter raw start subs fs, start ≤ raw.length →
    U target counter raw start = .ok (subs, fs) →
    start ≤ fs ∧ fs ≤ raw.length ∧
    ∀ raw', raw.take fs = raw'.take fs →
      U target counter raw' start = .ok (subs, fs)

/-- The bit string of hex D2FE28 (the 24-bit string
110100101111111000101000). -/
def d2feBits : Bits :=
  [true, true, false, true, false, false,
   true, false, true, true, true, true,
   true, true, true, false, false, false,
   true, false, true, false, false, false]

/-- An operator packet (version 0, type 0 = Sum, length-type 0) whose
declared sub-packet total is 5 bits, followed by one literal sub-packet
that is 11 bits long: the accumulated length jumps from 0 to 11 and can
never equal 5, so the length-type-0 loop overshoots.  Layout:
`000 000 0 000000000000101` then the literal `000 100 00010` (value 2). -/
def c2bits : Bits :=
  [false, false, false, false, false, false,
   false,
   false, false, false, false, false, false, false, false, false, false,
   false, false, true, false, true,
   false, false, false, true, false, false, false, false, false, true, false]

/-- An operator packet (version 0, type 5 = GreaterThan, length-type 1)
declaring THREE sub-packets, the literals 2, 1 and 7.  Layout:
`000 101 1 00000000011` then `000 100 00010`, `000 100 00001`,
`000 100 00111`; 51 bits in total. -/
def c5bits : Bits :=
  [false, false, false, true, false, true,
   true,
   false, false, false, false, false, false, false, false, false, true, true,
   false, false, false, true, false, false, false, false, false, true, false,
   false, false, false, true, false, false, false, false, false, false, true,
   false, false, false, true, false, false, false, false, true, true, true]

/-- The body of a literal packet with 17 groups of `1111`: its value is
`2 ^ 68 - 1`, which exceeds `usize::MAX`. -/
def bigRaw : Bits :=
  (List.replicate 16 [true, true, true, true, true]).flatten ++
    [false, true, true, true, true]

example : hexDecode "D2FE28".toList = .ok d2feBits := rfl

example : parsePacket 5 d2feBits = .ok (.Value ⟨6, 2021, 21⟩) := rfl

/-! ### List and slice helper lemmas -/

theorem take_eq_mono {α : Type} {l l' : List α} {m n : Nat}
    (h : l.take n = l'.take n) (hm : m ≤ n) : l.take m = l'.take m := by
  have h2 := congrArg (List.take m) h
  simpa [List.take_take, Nat.min_eq_left hm] using h2

theorem length_ge_of_take_eq {α : Type} {l l' : List α} {n : Nat}
    (h : l.take n = l'.take n) (hn : n ≤ l.length) : n ≤ l'.length := by
  have h1 : (l'.take n).length = n := by
    rw [← h]; simp [List.length_take, Nat.min_eq_left hn]
  simp only [List.length_take] at h1
  omega

theorem drop_take_eq {α : Type} {l l' : List α} {a b : Nat}
    (h : l.take (a + b) = l'.take (a + b)) :
    (l.drop a).take b = (l'.drop a).take b := by
  have h2 := congrArg (List.drop a) h
  rw [List.drop_take, List.drop_take] at h2
  simpa using h2

theorem sliceBits_facts {s : Bits} {a b : Nat} {v : Bits}
    (h : sliceBits s a b = .ok v) :
    a ≤ b ∧ b ≤ s.length ∧ v = (s.drop a).take (b - a) := by
  unfold sliceBits at h
  split at h
  · rename_i hc
    exact ⟨hc.1, hc.2, by injection h with h1; exact h1.symm⟩
  · exact absurd h (by simp)

theorem sliceBits_eq_of_take_eq {l l' : Bits} {N a b : Nat}
    (h : l.take N = l'.take N) (hb : b ≤ N) (hl : N ≤ l.length) :
    sliceBits l a b = sliceBits l' a b := by
  have hl' : N ≤ l'.length := length_ge_of_take_eq h hl
  unfold sliceBits
  by_cases hab : a ≤ b
  · have hbl : b ≤ l.length := le_trans hb hl
    have hbl' : b ≤ l'.length := le_trans hb hl'
    rw [if_pos ⟨hab, hbl⟩, if_pos ⟨hab, hbl'⟩]
    have hab2 : a + (b - a) = b := by omega
    have h3 : l.take (a + (b - a)) = l'.take (a + (b - a)) := by
      rw [hab2]; exact take_eq_mono h hb
    exact congrArg Except.ok (drop_take_eq h3)
  · rw [if_neg (fun hc => hab hc.1), if_neg (fun hc => hab hc.1)]

/-! ### Frame property of the decoder -/

/-- `readGroups` reads at least one group, its payload is 4 bits per
group, it consumes `5 * i` bits, and it looks only at those bits. -/
theorem readGroups_frame : ∀ (raw : Bits) (payload : Bits) (i : Nat),
    readGroups raw = .ok (payload, i) →
    1 ≤ i ∧ payload.length = 4 * i ∧ 5 * i ≤ raw.length ∧
    ∀ raw', raw.take (5 * i) = raw'.take (5 * i) →
      readGroups raw' = .ok (payload, i)
  | [], _, _, h => by simp [readGroups] at h
  | [_], _, _, h => by simp [readGroups] at h
  | [_, _], _, _, h => by simp [readGroups] at h
  | [_, _, _], _, _, h => by simp [readGroups] at h
  | [_, _, _, _], _, _, h => by simp [readGroups] at h
  | b0 :: b1 :: b2 :: b3 :: b4 :: rest, payload, i, h => by
    cases b0 with
    | false =>
      simp only [readGroups, if_pos rfl] at h
      injection h with h1
      injection h1 with hpl hi
      subst hpl; subst hi
      refine ⟨le_refl 1, rfl, by simp only [List.length_cons]; omega, ?_⟩
      intro raw' htk
      have h5 : (false :: b1 :: b2 :: b3 :: b4 :: rest).take (5 * 1) =
          [false, b1, b2, b3, b4] := rfl
      rw [h5] at htk
      have hr' : raw' = false :: b1 :: b2 :: b3 :: b4 :: raw'.drop 5 := by
        conv_lhs => rw [← List.take_append_drop (5 * 1) raw']
        rw [← htk]
        rfl
      rw [hr']
      simp [readGroups]
    | true =>
      simp only [readGroups] at h
      cases hrg : readGroups rest with
      | error e =>
        rw [hrg] at h
        simp at h
      | ok pj =>
        obtain ⟨p, j⟩ := pj
        rw [hrg] at h
        simp at h
        obtain ⟨hpl, hi⟩ := h
        subst hi
        have ih := readGroups_frame rest p j hrg
        refine ⟨by omega, ?_, ?_, ?_⟩
        · rw [← hpl]
          simp only [List.length_append, List.length_cons, List.length_nil, ih.2.1]
          omega
        · simp only [List.length_cons]
          have := ih.2.2.1
          omega
        · intro raw' htk
          have he : 5 * (j + 1) = 5 + 5 * j := by omega
          rw [he] at htk
          have htk5 : (true :: b1 :: b2 :: b3 :: b4 :: rest).take 5 =
              raw'.take 5 := take_eq_mono htk (by omega)
          have hr' : raw' = true :: b1 :: b2 :: b3 :: b4 :: raw'.drop 5 := by
            conv_lhs => rw [← List.take_append_drop 5 raw']
            rw [← htk5]
            rfl
          have hdt : rest.take (5 * j) = (raw'.drop 5).take (5 * j) :=
            drop_take_eq (a := 5) (b := 5 * j) htk
          have hrg' : readGroups (raw'.drop 5) = .ok (p, j) :=
            ih.2.2.2 _ hdt
          rw [hr']
          simp [readGroups, hrg', hpl]

/-- Frame property of the count-driven sub-packet loop. -/
theorem countGo_frame {P : Bits → Except Abort Packet} (hP : frameP P) :
    ∀ (n : Nat) (raw : Bits) (start : Nat) (subs : List Packet) (fs : Nat),
      start ≤ raw.length →
      countGo P n raw start = .ok (subs, fs) →
      start ≤ fs ∧ fs ≤ raw.length ∧
      ∀ raw', raw.take fs = raw'.take fs →
        countGo P n raw' start = .ok (subs, fs) := by
  intro n
  induction n with
  | zero =>
    intro raw start subs fs hs h
    simp only [countGo] at h
    injection h with h1
    injection h1 with h2 h3
    subst h2; subst h3
    exact ⟨le_refl _, hs, fun raw' _ => rfl⟩
  | succ n ih =>
    intro raw start subs fs hs h
    simp only [countGo] at h
    split at h
    · exact absurd h (by simp)
    · rename_i p hp
      split at h
      · exact absurd h (by simp)
      · rename_i ps fs' hc
        injection h with h1
        injection h1 with h2 h3
        subst h2; subst h3
        have hPf := hP _ _ hp
        have hlen : start + p.len ≤ raw.length := by
          have h4 := hPf.2.1
          simp only [List.length_drop] at h4
          omega
        have ihc := ih raw (start + p.len) ps fs' hlen hc
        refine ⟨by omega, ihc.2.1, ?_⟩
        intro raw' htk
        have hfs1 : start + p.len ≤ fs' := ihc.1
        have htk2 : raw.take (start + p.len) = raw'.take (start + p.len) :=
          take_eq_mono htk hfs1
        have hdrop : (raw.drop start).take p.len = (raw'.drop start).take p.len :=
          drop_take_eq htk2
        have hp' : P (raw'.drop start) = .ok p := hPf.2.2 _ hdrop
        have hc' : countGo P n raw' (start + p.len) = .ok (ps, fs') :=
          ihc.2.2 raw' htk
        simp [countGo, hp', hc']

/-- Frame property of the length-target loop, one fuel level up. -/
theorem untilStep_frame {P : Bits → Except Abort Packet}
    {U : Nat → Nat → Bits → Nat → Except Abort (List Packet × Nat)}
    (hP : frameP P) (hU : frameU U) : frameU (untilStep P U) := by
  intro target counter raw start subs fs hs h
  unfold untilStep at h
  split at h
  · rename_i hct
    injection h with h1
    injection h1 with h2 h3
    subst h2; subst h3
    refine ⟨le_refl _, hs, ?_⟩
    intro raw' _
    unfold untilStep
    rw [if_pos hct]
  · rename_i hct
    split at h
    · exact absurd h (by simp)
    · rename_i p hp
      split at h
      · exact absurd h (by simp)
      · rename_i ps fs' hc
        injection h with h1
        injection h1 with h2 h3
        subst h2; subst h3
        have hPf := hP _ _ hp
        have hlen : start + p.len ≤ raw.length := by
          have h4 := hPf.2.1
          simp only [List.length_drop] at h4
          omega
        have ihu := hU target (counter + p.len) raw (start + p.len) ps fs' hlen hc
        refine ⟨by omega, ihu.2.1, ?_⟩
        intro raw' htk
        have hfs1 : start + p.len ≤ fs' := ihu.1
        have htk2 : raw.take (start + p.len) = raw'.take (start + p.len) :=
          take_eq_mono htk hfs1
        have hdrop : (raw.drop start).take p.len = (raw'.drop start).take p.len :=
          drop_take_eq htk2
        have hp' : P (raw'.drop start) = .ok p := hPf.2.2 _ hdrop
        have hc' : U target (counter + p.len) raw' (start + p.len) = .ok (ps, fs') :=
          ihu.2.2 raw' htk
        simp [untilStep, hct, hp', hc']

/-- Frame property of `OperatorPacket::new`: a successful operator body
parse consumes `p.len - 6` bits of its body string and looks only at
those. -/
theorem opStep_frame {P : Bits → Except Abort Packet}
    {U : Nat → Nat → Bits → Nat → Except Abort (List Packet × Nat)}
    (hP : frameP P) (hU : frameU U) :
    ∀ (version : Nat) (op : OpType) (raw : Bits) (p : Packet),
      opStep P U version op raw = .ok p →
      7 ≤ p.len ∧ p.len - 6 ≤ raw.length ∧
      ∀ raw', raw.take (p.len - 6) = raw'.take (p.len - 6) →
        opStep P U version op raw' = .ok p := by
  intro version op raw p h
  unfold opStep at h
  split at h
  · exact absurd h (by simp)
  · rename_i ltb hlt
    split at h
    · rename_i htrue
      split at h
      · exact absurd h (by simp)
      · rename_i nb h12
        split at h
        · exact absurd h (by simp)
        · rename_i n hn
          split at h
          · exact absurd h (by simp)
          · rename_i subsfs subs fs hcg
            injection h with h1
            subst h1
            have hf12 := sliceBits_facts h12
            have hcgf := countGo_frame hP n raw 12 subs fs hf12.2.1 hcg
            have hlen : (Packet.Operator version op subs (fs + 6)).len = fs + 6 :=
              rfl
            refine ⟨by rw [hlen]; omega, ?_, ?_⟩
            · rw [hlen]
              have := hcgf.2.1
              omega
            · intro raw' htk
              rw [hlen] at htk
              have hfix : fs + 6 - 6 = fs := by omega
              rw [hfix] at htk
              have h12fs : 12 ≤ fs := hcgf.1
              have e01 : sliceBits raw 0 1 = sliceBits raw' 0 1 :=
                sliceBits_eq_of_take_eq htk (by omega) hcgf.2.1
              have e112 : sliceBits raw 1 12 = sliceBits raw' 1 12 :=
                sliceBits_eq_of_take_eq htk (by omega) hcgf.2.1
              have hlt' : sliceBits raw' 0 1 = .ok ltb := e01.symm.trans hlt
              have h12' : sliceBits raw' 1 12 = .ok nb := e112.symm.trans h12
              have hcg' : countGo P n raw' 12 = .ok (subs, fs) :=
                hcgf.2.2 raw' htk
              simp [opStep, hlt', htrue, h12', hn, hcg', hlen, hfix]
    · rename_i hntrue
      split at h
      · rename_i hfalse
        split at h
        · exact absurd h (by simp)
        · rename_i lb h16
          split at h
          · exact absurd h (by simp)
          · rename_i target htg
            split at h
            · exact absurd h (by simp)
            · rename_i subsfs subs fs hug
              injection h with h1
              subst h1
              have hf16 := sliceBits_facts h16
              have hugf := hU target 0 raw 16 subs fs hf16.2.1 hug
              have hlen : (Packet.Operator version op subs (fs + 6)).len = fs + 6 :=
                rfl
              refine ⟨by rw [hlen]; omega, ?_, ?_⟩
              · rw [hlen]
                have := hugf.2.1
                omega
              · intro raw' htk
                rw [hlen] at htk
                have hfix : fs + 6 - 6 = fs := by omega
                rw [hfix] at htk
                have h16fs : 16 ≤ fs := hugf.1
                have e01 : sliceBits raw 0 1 = sliceBits raw' 0 1 :=
                  sliceBits_eq_of_take_eq htk (by omega) hugf.2.1
                have e116 : sliceBits raw 1 16 = sliceBits raw' 1 16 :=
                  sliceBits_eq_of_take_eq htk (by omega) hugf.2.1
                have hlt' : sliceBits raw' 0 1 = .ok ltb := e01.symm.trans hlt
                have h16' : sliceBits raw' 1 16 = .ok lb := e116.symm.trans h16
                have hug' : U target 0 raw' 16 = .ok (subs, fs) :=
                  hugf.2.2 raw' htk
                simp [opStep, hlt', hntrue, hfalse, h16', htg, hug', hlen, hfix]
      · exact absurd h (by simp)

/-- Frame property of `parse_packet`, one fuel level up. -/
theorem parseStep_frame {P : Bits → Except Abort Packet}
    {U : Nat → Nat → Bits → Nat → Except Abort (List Packet × Nat)}
    (hP : frameP P) (hU : frameU U) : frameP (parseStep P U) := by
  intro input p h
  unfold parseStep at h
  split at h
  · exact absurd h (by simp)
  · rename_i vb hsl03
    split at h
    · exact absurd h (by simp)
    · rename_i version hver
      split at h
      · exact absurd h (by simp)
      · rename_i tb hsl36
        split at h
        · exact absurd h (by simp)
        · rename_i t ht
          split at h
          · exact absurd h (by simp)
          · rename_i op hop
            have h6 : 6 ≤ input.length := (sliceBits_facts hsl36).2.1
            split at h
            · rename_i hval
              split at h
              · exact absurd h (by simp)
              · rename_i vp hvp
                injection h with h1
                subst h1
                unfold ValuePacket.new at hvp
                split at hvp
                · exact absurd hvp (by simp)
                · rename_i pli payload i hrg
                  split at hvp
                  · exact absurd hvp (by simp)
                  · rename_i value hbv
                    injection hvp with h2
                    subst h2
                    have hrgf := readGroups_frame _ _ _ hrg
                    have hi1 : 1 ≤ i := hrgf.1
                    have h5i : 5 * i ≤ (input.drop 6).length := hrgf.2.2.1
                    simp only [List.length_drop] at h5i
                    have hlen : (Packet.Value ⟨version, value, i * 5 + 6⟩).len =
                        i * 5 + 6 := rfl
                    refine ⟨by rw [hlen]; omega, by rw [hlen]; omega, ?_⟩
                    intro input' htk
                    rw [hlen] at htk
                    have hNlen : i * 5 + 6 ≤ input.length := by omega
                    have e03 : sliceBits input 0 3 = sliceBits input' 0 3 :=
                      sliceBits_eq_of_take_eq htk (by omega) hNlen
                    have e36 : sliceBits input 3 6 = sliceBits input' 3 6 :=
                      sliceBits_eq_of_take_eq htk (by omega) hNlen
                    have hsl03' : sliceBits input' 0 3 = .ok vb :=
                      e03.symm.trans hsl03
                    have hsl36' : sliceBits input' 3 6 = .ok tb :=
                      e36.symm.trans hsl36
                    have htk2 : input.take (6 + 5 * i) = input'.take (6 + 5 * i) := by
                      have he : i * 5 + 6 = 6 + 5 * i := by omega
                      rwa [he] at htk
                    have hdt : (input.drop 6).take (5 * i) =
                        (input'.drop 6).take (5 * i) := drop_take_eq htk2
                    have hrg' : readGroups (input'.drop 6) = .ok (payload, i) :=
                      hrgf.2.2.2 _ hdt
                    simp [parseStep, hsl03', hver, hsl36', ht, hop, hval,
                      ValuePacket.new, hrg', hbv]
            · rename_i hnval
              have hof := opStep_frame hP hU version op (input.drop 6) p h
              have hlen6 : p.len - 6 ≤ input.length - 6 := by
                have := hof.2.1
                simp only [List.length_drop] at this
                omega
              have h7 : 7 ≤ p.len := hof.1
              refine ⟨by omega, by omega, ?_⟩
              intro input' htk
              have hNlen : p.len ≤ input.length := by omega
              have e03 : sliceBits input 0 3 = sliceBits input' 0 3 :=
                sliceBits_eq_of_take_eq htk (by omega) hNlen
              have e36 : sliceBits input 3 6 = sliceBits input' 3 6 :=
                sliceBits_eq_of_take_eq htk (by omega) hNlen
              have hsl03' : sliceBits input' 0 3 = .ok vb :=
                e03.symm.trans hsl03
              have hsl36' : sliceBits input' 3 6 = .ok tb :=
                e36.symm.trans hsl36
              have htk2 : input.take (6 + (p.len - 6)) =
                  input'.take (6 + (p.len - 6)) := by
                have he : p.len = 6 + (p.len - 6) := by omega
                rwa [he] at htk
              have hdt : (input.drop 6).take (p.len - 6) =
                  (input'.drop 6).take (p.len - 6) := drop_take_eq htk2
              have hop' : opStep P U version op (input'.drop 6) = .ok p :=
                hof.2.2 _ hdt
              simp [parseStep, hsl03', hver, hsl36', ht, hop, hnval, hop']

/-- The frame property holds at every fuel level: this is the exact
bit-consumption invariant of the decoder. -/
theorem frame_main : ∀ fuel, frameP (parsePacket fuel) ∧ frameU (parseUntilAt fuel) := by
  intro fuel
  induction fuel with
  | zero =>
    constructor
    · intro input p h
      simp [parsePacket, parseBundle] at h
    · intro target counter raw start subs fs hs h
      simp only [parseUntilAt, parseBundle, zeroUntil] at h
      split at h
      · rename_i hct
        injection h with h1
        injection h1 with h2 h3
        subst h2; subst h3
        refine ⟨le_refl _, hs, ?_⟩
        intro raw' _
        simp only [parseUntilAt, parseBundle, zeroUntil]
        rw [if_pos hct]
      · exact absurd h (by simp)
  | succ fuel ih =>
    have hU : frameU (parseUntilAt (fuel + 1)) := untilStep_frame ih.1 ih.2
    exact ⟨parseStep_frame ih.1 hU, hU⟩

/-! ### The decoder has no LengthMismatch error -/

theorem sliceBits_ne_lm (s : Bits) (a b : Nat) :
    sliceBits s a b ≠ .error .lengthMismatch := by
  unfold sliceBits
  split <;> simp

theorem binaryToUsize_ne_lm (bs : Bits) :
    binaryToUsize bs ≠ .error .lengthMismatch := by
  unfold binaryToUsize
  split
  · simp
  · split <;> simp

theorem readGroups_ne_lm : ∀ raw : Bits,
    readGroups raw ≠ .error .lengthMismatch
  | [] => by simp [readGroups]
  | [_] => by simp [readGroups]
  | [_, _] => by simp [readGroups]
  | [_, _, _] => by simp [readGroups]
  | [_, _, _, _] => by simp [readGroups]
  | b0 :: b1 :: b2 :: b3 :: b4 :: rest => by
    have ih := readGroups_ne_lm rest
    simp only [readGroups]
    split
    · simp
    · cases hrg : readGroups rest with
      | error e =>
        rw [hrg] at ih
        simp [hrg]
        intro hcon
        exact ih (by rw [hcon])
      | ok pj =>
        obtain ⟨p, j⟩ := pj
        simp [hrg]

theorem valuePacketNew_ne_lm (version : Nat) (raw : Bits) :
    ValuePacket.new version raw ≠ .error .lengthMismatch := by
  unfold ValuePacket.new
  split
  · rename_i e hrg
    intro hcon
    injection hcon with h1
    subst h1
    exact readGroups_ne_lm raw hrg
  · rename_i payload i hrg
    split
    · rename_i e hbv
      intro hcon
      injection hcon with h1
      subst h1
      exact binaryToUsize_ne_lm payload hbv
    · simp

theorem fromUsize_ne_lm (t : Nat) :
    OpType.fromUsize t ≠ .error .lengthMismatch := by
  unfold OpType.fromUsize
  split <;> simp

theorem countGo_ne_lm {P : Bits → Except Abort Packet}
    (hP : ∀ input, P input ≠ .error .lengthMismatch) :
    ∀ (n : Nat) (raw : Bits) (start : Nat),
      countGo P n raw start ≠ .error .lengthMismatch := by
  intro n
  induction n with
  | zero => intro raw start; simp [countGo]
  | succ n ih =>
    intro raw start
    simp only [countGo]
    split
    · rename_i e hp
      intro hcon
      injection hcon with h1
      subst h1
      exact hP _ hp
    · rename_i p hp
      split
      · rename_i e hc
        intro hcon
        injection hcon with h1
        subst h1
        exact ih _ _ hc
      · rename_i ps fs hc
        simp

theorem untilStep_ne_lm {P : Bits → Except Abort Packet}
    {U : Nat → Nat → Bits → Nat → Except Abort (List Packet × Nat)}
    (hP : ∀ input, P input ≠ .error .lengthMismatch)
    (hU : ∀ t c raw s, U t c raw s ≠ .error .lengthMismatch) :
    ∀ (target counter : Nat) (raw : Bits) (start : Nat),
      untilStep P U target counter raw start ≠ .error .lengthMismatch := by
  intro target counter raw start
  unfold untilStep
  split
  · simp
  · split
    · rename_i e hp
      intro hcon
      injection hcon with h1
      subst h1
      exact hP _ hp
    · rename_i p hp
      split
      · rename_i e hc
        intro hcon
        injection hcon with h1
        subst h1
        exact hU _ _ _ _ hc
      · rename_i ps fs hc
        simp

theorem opStep_ne_lm {P : Bits → Except Abort Packet}
    {U : Nat → Nat → Bits → Nat → Except Abort (List Packet × Nat)}
    (hP : ∀ input, P input ≠ .error .lengthMismatch)
    (hU : ∀ t c raw s, U t c raw s ≠ .error .lengthMismatch) :
    ∀ (version : Nat) (op : OpType) (raw : Bits),
      opStep P U version op raw ≠ .error .lengthMismatch := by
  intro version op raw
  unfold opStep
  split
  · rename_i e hsl
    intro hcon
    injection hcon with h1
    subst h1
    exact sliceBits_ne_lm _ _ _ hsl
  · rename_i ltb hsl
    split
    · split
      · rename_i e h12
        intro hcon
        injection hcon with h1
        subst h1
        exact sliceBits_ne_lm _ _ _ h12
      · rename_i nb h12
        split
        · rename_i e hbv
          intro hcon
          injection hcon with h1
          subst h1
          exact binaryToUsize_ne_lm _ hbv
        · rename_i n hbv
          split
          · rename_i e hcg
            intro hcon
            injection hcon with h1
            subst h1
            exact countGo_ne_lm hP _ _ _ hcg
          · rename_i subs fs hcg
            simp
    · split
      · split
        · rename_i e h16
          intro hcon
          injection hcon with h1
          subst h1
          exact sliceBits_ne_lm _ _ _ h16
        · rename_i lb h16
          split
          · rename_i e hbv
            intro hcon
            injection hcon with h1
            subst h1
            exact binaryToUsize_ne_lm _ hbv
          · rename_i target hbv
            split
            · rename_i e hug
              intro hcon
              injection hcon with h1
              subst h1
              exact hU _ _ _ _ hug
            · rename_i subs fs hug
              simp
      · simp

theorem parseStep_ne_lm {P : Bits → Except Abort Packet}
    {U : Nat → Nat → Bits → Nat → Except Abort (List Packet × Nat)}
    (hP : ∀ input, P input ≠ .error .lengthMismatch)
    (hU : ∀ t c raw s, U t c raw s ≠ .error .lengthMismatch) :
    ∀ input : Bits, parseStep P U input ≠ .error .lengthMismatch := by
  intro input
  unfold parseStep
  split
  · rename_i e hsl
    intro hcon
    injection hcon with h1
    subst h1
    exact sliceBits_ne_lm _ _ _ hsl
  · rename_i vb hsl
    split
    · rename_i e hbv
      intro hcon
      injection hcon with h1
      subst h1
      exact binaryToUsize_ne_lm _ hbv
    · rename_i version hbv
      split
      · rename_i e hsl2
        intro hcon
        injection hcon with h1
        subst h1
        exact sliceBits_ne_lm _ _ _ hsl2
      · rename_i tb hsl2
        split
        · rename_i e hbv2
          intro hcon
          injection hcon with h1
          subst h1
          exact binaryToUsize_ne_lm _ hbv2
        · rename_i t hbv2
          split
          · rename_i e hfu
            intro hcon
            injection hcon with h1
            subst h1
            exact fromUsize_ne_lm _ hfu
          · rename_i op hfu
            split
            · split
              · rename_i e hvp
                intro hcon
                injection hcon with h1
                subst h1
                exact valuePacketNew_ne_lm _ _ hvp
              · simp
            · exact opStep_ne_lm hP hU _ _ _

/-- At every fuel level neither the parser nor the length-type-0 loop
can produce the `lengthMismatch` error. -/
theorem parse_ne_lm : ∀ fuel : Nat,
    (∀ input, parsePacket fuel input ≠ .error .lengthMismatch) ∧
    (∀ t c raw s, parseUntilAt fuel t c raw s ≠ .error .lengthMismatch) := by
  intro fuel
  induction fuel with
  | zero =>
    constructor
    · intro input
      simp [parsePacket, parseBundle]
    · intro t c raw s
      simp only [parseUntilAt, parseBundle, zeroUntil]
      split <;> simp
  | succ fuel ih =>
    have hU : ∀ t c raw s,
        parseUntilAt (fuel + 1) t c raw s ≠ .error .lengthMismatch :=
      fun t c raw s => untilStep_ne_lm ih.1 ih.2 t c raw s
    exact ⟨fun input => parseStep_ne_lm ih.1 hU input, hU⟩

/-- Once the length-type-0 loop's accumulated length has overshot the
declared total, it can never succeed: it keeps decoding (the counter
only grows) until some read fails, and the resulting error is never
`lengthMismatch`. -/
theorem overshoot_fails : ∀ (fuel target counter : Nat) (raw : Bits) (start : Nat),
    target < counter →
    ∃ e, parseUntilAt fuel target counter raw start = .error e ∧
      e ≠ .lengthMismatch := by
  intro fuel
  induction fuel with
  | zero =>
    intro target counter raw start hlt
    refine ⟨.outOfFuel, ?_, by simp⟩
    simp only [parseUntilAt, parseBundle, zeroUntil]
    rw [if_neg (by omega)]
  | succ fuel ih =>
    intro target counter raw start hlt
    have heq : parseUntilAt (fuel + 1) target counter raw start =
        untilStep (parsePacket fuel) (parseUntilAt fuel) target counter raw start :=
      rfl
    rw [heq]
    unfold untilStep
    rw [if_neg (by omega)]
    cases hp : parsePacket fuel (raw.drop start) with
    | error e =>
      refine ⟨e, rfl, ?_⟩
      intro hcon
      subst hcon
      exact (parse_ne_lm fuel).1 _ hp
    | ok p =>
      have hlt2 : target < counter + p.len := by omega
      obtain ⟨e, he, hne⟩ := ih target (counter + p.len) raw (start + p.len) hlt2
      refine ⟨e, ?_, hne⟩
      simp [he]

/-! ### Arithmetic and truncation lemmas -/

theorem bitsToNat_foldl_lt : ∀ (bs : Bits) (acc : Nat),
    bs.foldl (fun a b => 2 * a + (if b then 1 else 0)) acc <
      (acc + 1) * 2 ^ bs.length := by
  intro bs
  induction bs with
  | nil => intro acc; simp
  | cons b bs ih =>
    intro acc
    simp only [List.foldl_cons, List.length_cons]
    have h1 := ih (2 * acc + (if b then 1 else 0))
    have h2 : (2 * acc + (if b then 1 else 0) + 1) * 2 ^ bs.length ≤
        (acc + 1) * 2 ^ (bs.length + 1) := by
      have hd : (if b then 1 else 0) ≤ 1 := by split <;> omega
      have : 2 * acc + (if b then 1 else 0) + 1 ≤ 2 * (acc + 1) := by omega
      calc (2 * acc + (if b then 1 else 0) + 1) * 2 ^ bs.length
          ≤ 2 * (acc + 1) * 2 ^ bs.length :=
            Nat.mul_le_mul_right _ this
        _ = (acc + 1) * 2 ^ (bs.length + 1) := by ring
    omega

theorem bitsToNat_lt (bs : Bits) : bitsToNat bs < 2 ^ bs.length := by
  have := bitsToNat_foldl_lt bs 0
  simpa [bitsToNat] using this

/-- `binary_to_usize` on a nonempty string of at most 64 bits always
succeeds with the big-endian value. -/
theorem binaryToUsize_small {bs : Bits} (h1 : bs ≠ []) (h2 : bs.length ≤ 64) :
    binaryToUsize bs = .ok (bitsToNat bs) := by
  unfold binaryToUsize
  rw [if_neg h1, if_pos]
  calc bitsToNat bs < 2 ^ bs.length := bitsToNat_lt bs
    _ ≤ 2 ^ 64 := Nat.pow_le_pow_right (by omega) h2

/-- Fewer than 6 bits of input: the version/type reads run off the end
and the parser fails with the truncated-stream panic. -/
theorem parse_short (fuel : Nat) (input : Bits) (h : input.length < 6) :
    parsePacket (fuel + 1) input = .error .truncatedStream := by
  have heq : parsePacket (fuel + 1) input =
      parseStep (parsePacket fuel)
        (untilStep (parsePacket fuel) (parseUntilAt fuel)) input := rfl
  rw [heq]
  unfold parseStep
  by_cases h3 : input.length < 3
  · have hsl : sliceBits input 0 3 = .error .truncatedStream := by
      unfold sliceBits
      rw [if_neg (fun hc => absurd hc.2 (by omega))]
    simp [hsl]
  · have hsl : sliceBits input 0 3 = .ok (input.take 3) := by
      unfold sliceBits
      rw [if_pos ⟨by omega, by omega⟩]
      simp
    have hlen3 : (input.take 3).length = 3 := by
      simp only [List.length_take]
      omega
    have hne : input.take 3 ≠ [] := by
      intro hcon
      rw [hcon] at hlen3
      simp at hlen3
    have hbv := binaryToUsize_small hne (by omega)
    have hsl2 : sliceBits input 3 6 = .error .truncatedStream := by
      unfold sliceBits
      rw [if_neg (fun hc => absurd hc.2 (by omega))]
    simp [hsl, hbv, hsl2]

/-- Fewer than 5 bits left for a literal group: truncated stream. -/
theorem readGroups_short : ∀ raw : Bits, raw.length < 5 →
    readGroups raw = .error .truncatedStream
  | [], _ => rfl
  | [_], _ => rfl
  | [_, _], _ => rfl
  | [_, _, _], _ => rfl
  | [_, _, _, _], _ => rfl
  | _ :: _ :: _ :: _ :: _ :: _, h => by
    simp only [List.length_cons] at h
    omega

/-- An empty operator body: even the length-type bit is missing. -/
theorem opStep_empty (P : Bits → Except Abort Packet)
    (U : Nat → Nat → Bits → Nat → Except Abort (List Packet × Nat))
    (version : Nat) (op : OpType) :
    opStep P U version op [] = .error .truncatedStream := by
  unfold opStep
  have hsl : sliceBits [] 0 1 = .error .truncatedStream := by
    unfold sliceBits
    rw [if_neg (fun hc => by simp at hc)]
  simp [hsl]

/-- Length-type 1 with fewer than 11 further bits: the 11-bit count
field runs off the end. -/
theorem opStep_short_count (P : Bits → Except Abort Packet)
    (U : Nat → Nat → Bits → Nat → Except Abort (List Packet × Nat))
    (version : Nat) (op : OpType) (rest : Bits) (h : rest.length < 11) :
    opStep P U version op (true :: rest) = .error .truncatedStream := by
  unfold opStep
  have hsl : sliceBits (true :: rest) 0 1 = .ok [true] := by
    unfold sliceBits
    rw [if_pos ⟨by omega, by simp⟩]
    rfl
  have hsl12 : sliceBits (true :: rest) 1 12 = .error .truncatedStream := by
    unfold sliceBits
    rw [if_neg (fun hc => absurd hc.2 (by simp; omega))]
  simp [hsl, hsl12]

/-- Length-type 0 with fewer than 15 further bits: the 15-bit total
field runs off the end. -/
theorem opStep_short_total (P : Bits → Except Abort Packet)
    (U : Nat → Nat → Bits → Nat → Except Abort (List Packet × Nat))
    (version : Nat) (op : OpType) (rest : Bits) (h : rest.length < 15) :
    opStep P U version op (false :: rest) = .error .truncatedStream := by
  unfold opStep
  have hsl : sliceBits (false :: rest) 0 1 = .ok [false] := by
    unfold sliceBits
    rw [if_pos ⟨by omega, by simp⟩]
    rfl
  have hsl16 : sliceBits (false :: rest) 1 16 = .error .truncatedStream := by
    unfold sliceBits
    rw [if_neg (fun hc => absurd hc.2 (by simp; omega))]
  simp [hsl, hsl16]

/-! ### Hex decoding lemmas -/

theorem toBinary_err : ∀ (c : Char) (e : Abort),
    toBinary c = .error e → e = .invalidDigit := by
  intro c e h
  unfold toBinary at h
  split at h <;> simp_all

theorem toBinary_ok_len : ∀ (c : Char) (bs : Bits),
    toBinary c = .ok bs → bs.length = 4 := by
  intro c bs h
  unfold toBinary at h
  split at h <;> simp_all <;> (subst h; rfl)

theorem toBinaryAll_err_only : ∀ (cs : List Char) (e : Abort),
    toBinaryAll cs = .error e → e = .invalidDigit := by
  intro cs
  induction cs with
  | nil => intro e h; simp [toBinaryAll] at h
  | cons c cs ih =>
    intro e h
    simp only [toBinaryAll] at h
    split at h
    · rename_i e2 htb
      injection h with h1
      subst h1
      exact toBinary_err c e2 htb
    · rename_i bs htb
      split at h
      · rename_i e2 hta
        injection h with h1
        subst h1
        exact ih e2 hta
      · exact absurd h (by simp)

theorem toBinaryAll_err_iff : ∀ cs : List Char,
    toBinaryAll cs = .error .invalidDigit ↔
      ∃ c ∈ cs, toBinary c = .error .invalidDigit := by
  intro cs
  induction cs with
  | nil => simp [toBinaryAll]
  | cons c cs ih =>
    simp only [toBinaryAll]
    cases htb : toBinary c with
    | error e =>
      have he := toBinary_err c e htb
      subst he
      constructor
      · intro _
        exact ⟨c, List.mem_cons_self c cs, htb⟩
      · intro _
        rfl
    | ok bs =>
      cases hta : toBinaryAll cs with
      | error e =>
        have he := toBinaryAll_err_only cs e hta
        subst he
        constructor
        · intro _
          obtain ⟨c2, hc2, hbad⟩ := ih.mp hta
          exact ⟨c2, List.mem_cons_of_mem c hc2, hbad⟩
        · intro _
          rfl
      | ok rest =>
        constructor
        · intro hcon
          have hcon2 : (Except.ok (bs ++ rest) : Except Abort Bits) =
              .error .invalidDigit := hcon
          exact absurd hcon2 (by simp)
        · intro hcon
          obtain ⟨c2, hc2, hbad⟩ := hcon
          rcases List.mem_cons.mp hc2 with hceq | hcm
          · subst hceq
            rw [htb] at hbad
            exact absurd hbad (by simp)
          · have hbad2 : toBinaryAll cs = .error .invalidDigit :=
              ih.mpr ⟨c2, hcm, hbad⟩
            rw [hta] at hbad2
            exact absurd hbad2 (by simp)

theorem toBinaryAll_len : ∀ (cs : List Char) (bs : Bits),
    toBinaryAll cs = .ok bs → bs.length = 4 * cs.length := by
  intro cs
  induction cs with
  | nil =>
    intro bs h
    simp only [toBinaryAll] at h
    injection h with h1
    subst h1
    rfl
  | cons c cs ih =>
    intro bs h
    simp only [toBinaryAll] at h
    split at h
    · exact absurd h (by simp)
    · rename_i b4 htb
      split at h
      · exact absurd h (by simp)
      · rename_i rest hta
        injection h with h1
        subst h1
        have hl4 := toBinary_ok_len c b4 htb
        have hlr := ih rest hta
        simp only [List.length_append, List.length_cons, hl4, hlr]
        ring

/-! ### Version sum via flattening -/

mutual

theorem versionSum_flatten_aux : ∀ p : Packet,
    p.versionSum = ((p.flatten).map Packet.version).sum
  | .Value v => by
    simp [Packet.versionSum, Packet.flatten, Packet.version]
  | .Operator version op subs l => by
    have hl := versionSumList_flatten_aux subs
    simp only [Packet.versionSum, Packet.flatten, Packet.version,
      List.map_cons, List.sum_cons, hl]
    omega

theorem versionSumList_flatten_aux : ∀ ps : List Packet,
    versionSumList ps = ((flattenList ps).map Packet.version).sum
  | [] => by simp [versionSumList, flattenList]
  | p :: ps => by
    have h1 := versionSum_flatten_aux p
    have h2 := versionSumList_flatten_aux ps
    simp only [versionSumList, flattenList, List.map_append,
      List.sum_append, h1, h2]

end

/-! ### The claims -/

/-- Claim C1: for every successfully decoded packet its reported
`len` equals 6 (header) plus the body's bit cost — the number of bits
actually read: the parse consumed at least the header, consumed at most
the available input, and decoding the packet embedded at the start of a
longer bit sequence followed by arbitrary padding reads exactly `len`
bits and returns the very same packet, leaving the padding untouched. -/
theorem claim1_consumed_length (fuel : Nat) (input : Bits) (p : Packet)
    (padding : Bits) (h : parsePacket fuel input = .ok p) :
    6 ≤ p.len ∧ p.len ≤ input.length ∧
    parsePacket fuel (input.take p.len ++ padding) = .ok p := by
  have hf := (frame_main fuel).1 input p h
  refine ⟨hf.1, hf.2.1, ?_⟩
  apply hf.2.2
  have hlen : (input.take p.len).length = p.len := by
    simp only [List.length_take]
    omega
  have h1 := List.take_left (input.take p.len) padding
  rw [hlen] at h1
  exact h1.symm

/-- Witness for C1: the D2FE28 literal (len 21) inside its 24-bit
sequence, re-padded with three other bits. -/
theorem claim1_witness :
    6 ≤ (Packet.Value ⟨6, 2021, 21⟩).len ∧
    (Packet.Value ⟨6, 2021, 21⟩).len ≤ d2feBits.length ∧
    parsePacket 5 (d2feBits.take (Packet.Value ⟨6, 2021, 21⟩).len ++
      [true, false, true]) = .ok (.Value ⟨6, 2021, 21⟩) :=
  claim1_consumed_length 5 d2feBits (.Value ⟨6, 2021, 21⟩)
    [true, false, true] rfl

/-- Claim C2 counterexample: on `c2bits` the declared 15-bit total is 5
while the first sub-packet consumes 11 bits, so the lengths can never
sum to the total — yet decoding fails with the truncated-stream panic
(the loop ran past the end of the input), not with a `LengthMismatch`
error. -/
theorem claim2_counterexample :
    parsePacket 40 c2bits = .error .truncatedStream ∧
    parsePacket 40 c2bits ≠ .error .lengthMismatch := by
  constructor
  · rfl
  · intro hcon
    have h1 : parsePacket 40 c2bits = .error .truncatedStream := rfl
    rw [h1] at hcon
    exact absurd hcon (by simp)

/-- Claim C2 (amended): the decoder has no overshoot check and never
produces a `LengthMismatch` error; when the accumulated sub-packet
length has overshot the declared total, the length-type-0 loop keeps
decoding past the declared region and always ends in some other error
(in the code, a panic once a read runs past the end of the input). -/
theorem claim2_amended :
    (∀ fuel input, parsePacket fuel input ≠ .error .lengthMismatch) ∧
    (∀ fuel target counter raw start, target < counter →
      ∃ e, parseUntilAt fuel target counter raw start = .error e ∧
        e ≠ .lengthMismatch) :=
  ⟨fun fuel input => (parse_ne_lm fuel).1 input,
   fun fuel t c raw s hlt => overshoot_fails fuel t c raw s hlt⟩

/-- Witness for C2 (amended), overshoot part at a concrete state. -/
theorem claim2_witness :
    ∃ e, parseUntilAt 3 5 11 c2bits 27 = .error e ∧
      e ≠ .lengthMismatch :=
  claim2_amended.2 3 5 11 c2bits 27 (by omega)

/-- Claim C3: a read past the end of the bit string fails with the
truncated-stream panic and nothing else: a slice fails with
`truncatedStream` exactly when its end exceeds the remaining length; a
parse with fewer than 6 bits fails that way at the version/type fields;
a literal group with fewer than 5 bits left fails that way; and an
operator body too short for its length-type bit, its 11-bit count field
or its 15-bit total field fails that way.  No default value is ever
substituted. -/
theorem claim3_truncated :
    (∀ (s : Bits) (a b : Nat), a ≤ b →
      (sliceBits s a b = .error .truncatedStream ↔ s.length < b)) ∧
    (∀ fuel (input : Bits), input.length < 6 →
      parsePacket (fuel + 1) input = .error .truncatedStream) ∧
    (∀ raw : Bits, raw.length < 5 →
      readGroups raw = .error .truncatedStream) ∧
    (∀ P U (version : Nat) (op : OpType),
      opStep P U version op [] = .error .truncatedStream) ∧
    (∀ P U (version : Nat) (op : OpType) (rest : Bits), rest.length < 11 →
      opStep P U version op (true :: rest) = .error .truncatedStream) ∧
    (∀ P U (version : Nat) (op : OpType) (rest : Bits), rest.length < 15 →
      opStep P U version op (false :: rest) = .error .truncatedStream) := by
  refine ⟨?_, parse_short, readGroups_short, opStep_empty,
    opStep_short_count, opStep_short_total⟩
  intro s a b hab
  unfold sliceBits
  split
  · rename_i hc
    constructor
    · intro hcon
      exact absurd hcon (by simp)
    · intro hlt
      exact absurd hlt (by omega)
  · rename_i hc
    have hgt : s.length < b := by
      by_cases hb : b ≤ s.length
      · exact absurd ⟨hab, hb⟩ hc
      · omega
    exact ⟨fun _ => hgt, fun _ => rfl⟩

/-- Witness for C3: a 1-bit input dies at the 3-bit version read. -/
theorem claim3_witness :
    parsePacket 1 [true] = .error .truncatedStream :=
  claim3_truncated.2.1 0 [true] (by decide)

/-- Claim C4 counterexample: every character of `"d2"` is a valid hex
digit in the claim's case-insensitive sense, yet hex decoding fails
with `InvalidDigit` — so "valid inputs never produce this error" is
false as stated. -/
theorem claim4_counterexample :
    ((trimChars "d2".toList).all isHexDigitCI = true) ∧
    hexDecode "d2".toList = .error .invalidDigit :=
  ⟨by decide, rfl⟩

/-- Claim C4 (amended): hex decoding fails with `InvalidDigit` exactly
when the trimmed input contains a character outside the uppercase-only
table 0-9/A-F (lowercase hex digits are rejected too), and
`InvalidDigit` is the only error hex decoding can produce. -/
theorem claim4_amended (s : List Char) :
    (hexDecode s = .error .invalidDigit ↔
      ∃ c ∈ trimChars s, toBinary c = .error .invalidDigit) ∧
    (∀ e, hexDecode s = .error e → e = .invalidDigit) := by
  constructor
  · exact toBinaryAll_err_iff (trimChars s)
  · intro e h
    exact toBinaryAll_err_only (trimChars s) e h

/-- Witness for C4 (amended): the claim's own example `"D2G"`. -/
theorem claim4_witness : hexDecode "D2G".toList = .error .invalidDigit :=
  (claim4_amended "D2G".toList).1.mpr ⟨'G', by decide, rfl⟩

/-- Claim C5 counterexample: the decoder produces a GreaterThan
operator with THREE sub-packets from `c5bits`, and evaluating it
succeeds with 1 (comparing the first two, 2 > 1) instead of failing
with an arity error. -/
theorem claim5_counterexample :
    parsePacket 40 c5bits = .ok (.Operator 0 .GreaterThan
      [.Value ⟨0, 2, 11⟩, .Value ⟨0, 1, 11⟩, .Value ⟨0, 7, 11⟩] 51) ∧
    ([Packet.Value ⟨0, 2, 11⟩, .Value ⟨0, 1, 11⟩,
      .Value ⟨0, 7, 11⟩] : List Packet).length = 3 ∧
    Packet.value (.Operator 0 .GreaterThan
      [.Value ⟨0, 2, 11⟩, .Value ⟨0, 1, 11⟩, .Value ⟨0, 7, 11⟩] 51) =
      .ok 1 :=
  ⟨rfl, rfl, rfl⟩

/-- Claim C5 (amended): a comparison operator packet fails (sub-packet
index panic) when it has fewer than two sub-packets — the first
sub-packet, if present, is still evaluated first; with two or more it
returns 1 or 0 from comparing the values of the first two sub-packets,
silently ignoring any extras. -/
theorem claim5_amended (ver l : Nat) (p1 p2 : Packet) (rest : List Packet)
    (v1 v2 : Nat) :
    (∀ op, (op = OpType.GreaterThan ∨ op = OpType.LessThan ∨
        op = OpType.EqualTo) →
      Packet.value (.Operator ver op [] l) = .error .subIndex ∧
      (Packet.value p1 = .ok v1 →
        Packet.value (.Operator ver op [p1] l) = .error .subIndex)) ∧
    (Packet.value p1 = .ok v1 → Packet.value p2 = .ok v2 →
      Packet.value (.Operator ver .GreaterThan (p1 :: p2 :: rest) l) =
        .ok (if v2 < v1 then 1 else 0) ∧
      Packet.value (.Operator ver .LessThan (p1 :: p2 :: rest) l) =
        .ok (if v1 < v2 then 1 else 0) ∧
      Packet.value (.Operator ver .EqualTo (p1 :: p2 :: rest) l) =
        .ok (if v1 = v2 then 1 else 0)) := by
  constructor
  · intro op hop
    constructor
    · rcases hop with h | h | h <;> subst h <;> rfl
    · intro h1
      rcases hop with h | h | h <;> subst h <;>
        simp [Packet.value, compareOp, h1]
  · intro h1 h2
    refine ⟨?_, ?_, ?_⟩ <;> simp [Packet.value, compareOp, h1, h2]

/-- Witness for C5 (amended) at two concrete literals 3 and 5. -/
theorem claim5_witness :
    Packet.value (.Operator 0 OpType.GreaterThan
      [.Value ⟨0, 3, 11⟩, .Value ⟨0, 5, 11⟩] 0) =
        .ok (if (5 : Nat) < 3 then 1 else 0) ∧
    Packet.value (.Operator 0 OpType.LessThan
      [.Value ⟨0, 3, 11⟩, .Value ⟨0, 5, 11⟩] 0) =
        .ok (if (3 : Nat) < 5 then 1 else 0) ∧
    Packet.value (.Operator 0 OpType.EqualTo
      [.Value ⟨0, 3, 11⟩, .Value ⟨0, 5, 11⟩] 0) =
        .ok (if (3 : Nat) = 5 then 1 else 0) :=
  (claim5_amended 0 0 (.Value ⟨0, 3, 11⟩) (.Value ⟨0, 5, 11⟩) [] 3 5).2
    rfl rfl

/-- Claim C6: decoding the bit string 110100101111111000101000 yields a
Literal with version 6, value 2021, consumed length 21; and in general
a successful `ValuePacket::new` read `i ≥ 1` five-bit groups, kept 4
payload bits per group, reported `len = 6 + 5 * i`, and its value is
the big-endian number of the concatenated payloads. -/
theorem claim6_literal :
    (parsePacket 5 d2feBits = .ok (.Value ⟨6, 2021, 21⟩)) ∧
    (∀ (version : Nat) (raw : Bits) (vp : ValuePacket),
      ValuePacket.new version raw = .ok vp →
      ∃ (payload : Bits) (i : Nat),
        readGroups raw = .ok (payload, i) ∧ 1 ≤ i ∧
        payload.length = 4 * i ∧ vp.version = version ∧
        vp.len = 6 + 5 * i ∧ vp.value = bitsToNat payload) := by
  refine ⟨rfl, ?_⟩
  intro version raw vp h
  unfold ValuePacket.new at h
  split at h
  · exact absurd h (by simp)
  · rename_i payload i hrg
    split at h
    · exact absurd h (by simp)
    · rename_i value hbv
      injection h with h1
      subst h1
      have hf := readGroups_frame raw payload i hrg
      unfold binaryToUsize at hbv
      split at hbv
      · exact absurd hbv (by simp)
      · split at hbv
        · injection hbv with h2
          exact ⟨payload, i, hrg, hf.1, hf.2.1, rfl,
            by show i * 5 + 6 = 6 + 5 * i; omega,
            by show value = bitsToNat payload; exact h2.symm⟩
        · exact absurd hbv (by simp)

/-- Witness for C6 at the D2FE28 literal body. -/
theorem claim6_witness :
    ∃ (payload : Bits) (i : Nat),
      readGroups (d2feBits.drop 6) = .ok (payload, i) ∧ 1 ≤ i ∧
      payload.length = 4 * i ∧
      (ValuePacket.mk 6 2021 21).version = 6 ∧
      (ValuePacket.mk 6 2021 21).len = 6 + 5 * i ∧
      (ValuePacket.mk 6 2021 21).value = bitsToNat payload :=
  claim6_literal.2 6 (d2feBits.drop 6) ⟨6, 2021, 21⟩ rfl

/-- Claim C7: decoding hex 38006F45291200 yields an Operator packet
with version 1, operator LessThan, exactly the two sub-packets with
values 10 and 20 in order, consumed length 49, and evaluating it
returns 1. -/
theorem claim7_example :
    mainDecode 30 "38006F45291200".toList =
      .ok (.Operator 1 .LessThan
        [.Value ⟨6, 10, 11⟩, .Value ⟨2, 20, 16⟩] 49) ∧
    Packet.value (.Operator 1 .LessThan
      [.Value ⟨6, 10, 11⟩, .Value ⟨2, 20, 16⟩] 49) = .ok 1 :=
  ⟨rfl, rfl⟩

/-- Claim C8: `version_sum` equals the sum of the 3-bit version field
over every node of the tree, obtained independently by flattening. -/
theorem claim8_version_sum (p : Packet) :
    p.versionSum = ((p.flatten).map Packet.version).sum :=
  versionSum_flatten_aux p

/-- Claim C10: the literal accumulator is a 64-bit usize — when the
concatenated groups encode a number `≥ 2 ^ 64`, `ValuePacket::new`
hits the failed radix-2 conversion and panics through `unwrap` (the
`radixFail` abort), with no wrap-around and no recoverable decode
error. -/
theorem claim10_overflow (version : Nat) (raw payload : Bits) (i : Nat)
    (hrg : readGroups raw = .ok (payload, i))
    (hbig : 2 ^ 64 ≤ bitsToNat payload) :
    ValuePacket.new version raw = .error .radixFail := by
  have hf := readGroups_frame raw payload i hrg
  have hne : payload ≠ [] := by
    intro hcon
    have h2 := hf.2.1
    rw [hcon] at h2
    simp at h2
    have h1 := hf.1
    omega
  have hbv : binaryToUsize payload = .error .radixFail := by
    unfold binaryToUsize
    rw [if_neg hne, if_neg (by omega)]
  simp [ValuePacket.new, hrg, hbv]

/-- Witness for C10: a 17-group literal of all-ones (value 2^68-1). -/
theorem claim10_witness : ValuePacket.new 0 bigRaw = .error .radixFail :=
  claim10_overflow 0 bigRaw (List.replicate 68 true) 17 rfl (by decide)

/-- Claim C9 counterexample: the conversion is not case-insensitive —
uppercase D2FE28 decodes, lowercase d2fe28 aborts with the
`unreachable!` panic (`invalidDigit`). -/
theorem claim9_counterexample :
    hexDecode "D2FE28".toList = .ok d2feBits ∧
    hexDecode "d2fe28".toList = .error .invalidDigit :=
  ⟨rfl, rfl⟩

/-- Claim C9 (amended): each UPPERCASE hex character maps to its fixed
4-bit big-endian representation (leading zeros kept: every accepted
character contributes exactly 4 bits), groups are concatenated in input
order, lowercase is rejected, and D2FE28 yields the 24-bit string
110100101111111000101000. -/
theorem claim9_amended :
    hexDecode "D2FE28".toList = .ok d2feBits ∧
    (∀ (cs : List Char) (bs : Bits), toBinaryAll cs = .ok bs →
      bs.length = 4 * cs.length) ∧
    (∀ (c : Char) (bs4 : Bits) (cs : List Char) (rest : Bits),
      toBinary c = .ok bs4 → toBinaryAll cs = .ok rest →
      toBinaryAll (c :: cs) = .ok (bs4 ++ rest)) := by
  refine ⟨rfl, toBinaryAll_len, ?_⟩
  intro c bs4 cs rest h1 h2
  simp [toBinaryAll, h1, h2]

/-- Witness for C9 (amended): the single character '1' gives 4 bits. -/
theorem claim9_witness :
    ([false, false, false, true] : Bits).length = 4 * (['1'] : List Char).length :=
  claim9_amended.2.1 ['1'] [false, false, false, true] rfl
